import Mathlib

/-!
Shallow embedding of the knowledge-base component of `mevzuat_kb.py`
(tokenizer, chunker, persistent store, crawler/indexer, search/ranker),
with theorems settling the frozen claims about it.

Modelling conventions:
* Python strings are Lean `String`s; character-level work happens on
  `List Char`.  Python `str.lower` is modelled by `Char.toLower`, the
  basic-latin (ASCII) fragment of Unicode lowercasing; Python `\s` is
  modelled by `Char.isWhitespace` (space, tab, CR, LF).  The regex
  `[a-z0-9]+` with `re.IGNORECASE` is modelled by maximal runs of the
  character class `isTok` below (which includes the uppercase range,
  exactly as IGNORECASE does).
* Python ints are `Int` (timestamps) or `Nat` (sizes, counts); the
  sqlite tables are lists of rows; AUTOINCREMENT is a `nextId` counter.
* Network and HTML parsing are oracles: the seed page is abstracted to
  the list of href strings found on it, `fetch_url_text` to a function
  `String → Option String` (`none` = any fetch/extract exception).
* `urljoin` and `urlparse` are stdlib black boxes, passed as explicit
  function parameters; the link-filter theorems hold for every choice.
* The float relevance score `overlap / sqrt(|q|*|c|)` is represented by
  the triple `(overlap, |q|, |c|)`; the sort comparator compares scores
  by exact cross-multiplication (squaring both sides), which agrees with
  the real-valued comparison.  No claim depends on the result order.
-/

/-- Character class of the token regex `[a-z0-9]+` with `re.IGNORECASE`
(source line 12): lowercase letters, uppercase letters (IGNORECASE), digits. -/
def isTok (c : Char) : Bool :=
  (97 ≤ c.toNat && c.toNat ≤ 122) || (65 ≤ c.toNat && c.toNat ≤ 90) ||
    (48 ≤ c.toNat && c.toNat ≤ 57)

/-- The non-breaking-space character ` ` replaced by `normalize_text`. -/
def nbsp : Char := Char.ofNat 160

/-- Stage 1-2 of `normalize_text`: `s.lower()` then `replace(" ", " ")`. -/
def lowerNbsp (l : List Char) : List Char :=
  (l.map Char.toLower).map (fun c => if c = nbsp then ' ' else c)

/-- Part of stage 3 (`re.sub(r"\s+", " ", s)`): send every whitespace
character to a plain space. -/
def wsToSpace (l : List Char) : List Char :=
  l.map (fun c => if c.isWhitespace then ' ' else c)

/-- Part of stage 3: collapse consecutive spaces, so that together with
`wsToSpace` every maximal whitespace run becomes a single space. -/
def squeeze : List Char → List Char
  | [] => []
  | [c] => [c]
  | c₁ :: c₂ :: rest =>
    if c₁ = ' ' && c₂ = ' ' then squeeze (c₂ :: rest)
    else c₁ :: squeeze (c₂ :: rest)

/-- Stage 4 of `normalize_text`: `strip()`.  After stage 3 every whitespace
character is a plain space, and these are removed from both ends. -/
def stripEnds (l : List Char) : List Char :=
  ((l.dropWhile Char.isWhitespace).reverse.dropWhile Char.isWhitespace).reverse

/-- Character-level body of `normalize_text` (source lines 15-19). -/
def normalizeL (l : List Char) : List Char :=
  stripEnds (squeeze (wsToSpace (lowerNbsp l)))

/-- `normalize_text` (source lines 15-19): lowercase, map NBSP to space,
collapse whitespace runs to single spaces, strip. -/
def normalize_text (s : String) : String :=
  String.mk (normalizeL s.toList)

/-- Fuelled scanner for maximal runs of characters satisfying `p`,
separators dropped: the semantics of `re.findall` for a
character-class-plus regex.  Structural recursion on the fuel keeps the
function kernel-evaluable; `runsBy` supplies enough fuel (the list
length) and `runsBy_cons` below recovers the natural unfolding. -/
def runsByF (p : Char → Bool) : Nat → List Char → List (List Char)
  | _, [] => []
  | 0, _ :: _ => []
  | fuel + 1, c :: cs =>
    if p c then
      ((c :: cs).takeWhile p) :: runsByF p fuel ((c :: cs).dropWhile p)
    else runsByF p fuel cs

/-- Maximal runs of characters satisfying `p`: `l.length` fuel always
suffices because each step consumes at least one character. -/
def runsBy (p : Char → Bool) (l : List Char) : List (List Char) :=
  runsByF p l.length l

/-- `tokenize` (source lines 22-24): normalize, then extract the maximal
`[a-z0-9]+` (IGNORECASE) runs. -/
def tokenize (s : String) : List String :=
  (runsBy isTok (normalize_text s).toList).map (fun l => String.mk l)

/-- Character-level `" ".join`: concatenate with single space separators. -/
def joinSpaceL : List (List Char) → List Char
  | [] => []
  | [t] => t
  | t :: t₂ :: rest => t ++ ' ' :: joinSpaceL (t₂ :: rest)

/-- Python `" ".join(tokens)`. -/
def joinSpace (ts : List String) : String :=
  String.mk (joinSpaceL (ts.map String.toList))

/-- Fuelled loop body of `chunk_tokens` (source lines 56-61), starting at
window index `i`.  The advance is `max 1 step` as in the source, so
`tokens.length - i` fuel always suffices; structural recursion on the
fuel keeps the function kernel-evaluable. -/
def chunkGoF (tokens : List String) (cs step : Nat) : Nat → Nat → List String
  | 0, _ => []
  | fuel + 1, i =>
    if i < tokens.length then
      if ((tokens.drop i).take cs).isEmpty then []
      else joinSpace ((tokens.drop i).take cs) :: chunkGoF tokens cs step fuel (i + max 1 step)
    else []

/-- The `chunk_tokens` loop from window index `i`; `chunkGo_eq` below
recovers the natural unfolding. -/
def chunkGo (tokens : List String) (cs step i : Nat) : List String :=
  chunkGoF tokens cs step (tokens.length - i) i

/-- `chunk_tokens` (source lines 51-62).  The source defaults are
`chunk_size = 450`, `overlap = 80`; callers here pass them explicitly.
`chunk_size - overlap` is truncated `Nat` subtraction, matching
`max(1, chunk_size - overlap)` on Python ints via the `max 1` clamp. -/
def chunk_tokens (tokens : List String) (chunk_size overlap : Nat) : List String :=
  chunkGo tokens chunk_size (chunk_size - overlap) 0

/-- Fuel-indexed variant of the `chunk_tokens` loop: `none` means the
iteration budget was exhausted before the loop exited.  Used to state
termination (claim C9): `tokens.length` iterations always suffice. -/
def chunkGoFuel (tokens : List String) (cs step : Nat) : Nat → Nat → Option (List String)
  | 0, i => if i < tokens.length then none else some []
  | fuel + 1, i =>
    if i < tokens.length then
      if ((tokens.drop i).take cs).isEmpty then some []
      else (chunkGoFuel tokens cs step fuel (i + max 1 step)).map
        (fun rest => joinSpace ((tokens.drop i).take cs) :: rest)
    else some []

/-- Python `str.split()` with no argument (source line 191): maximal runs
of non-whitespace characters, empty strings never produced. -/
def pySplit (s : String) : List String :=
  (runsBy (fun c => !c.isWhitespace) s.toList).map (fun l => String.mk l)

/-- Python `str.strip()` on a whole string: drop whitespace from both
ends (same character class as the normalizer). -/
def strip (s : String) : String :=
  String.mk (stripEnds s.toList)

/-- Python `url.split("/")`: split at every separator, keeping empty
pieces; the result is never empty. -/
def splitOnChar (sep : Char) : List Char → List (List Char)
  | [] => [[]]
  | c :: cs =>
    match splitOnChar sep cs, c == sep with
    | r, true => [] :: r
    | [], false => [[c]]
    | g :: gs, false => (c :: g) :: gs

/-- Python string comparison on character lists: code-point
lexicographic order, reflexive (≤). -/
def lexLeL : List Char → List Char → Bool
  | [], _ => true
  | _ :: _, [] => false
  | a :: as, b :: bs => if a < b then true else if b < a then false else lexLeL as bs

/-- Python `s1 <= s2` on strings, as used by `sorted`. -/
def strLe (a b : String) : Bool :=
  lexLeL a.toList b.toList

/-- A row of the `docs` table (source lines 84-91): primary key `url`. -/
structure DocRow where
  url : String
  title : String
  fetched_at : Int
  content : String
deriving DecidableEq

/-- A row of the `chunks` table (source lines 92-100): AUTOINCREMENT id. -/
structure ChunkRow where
  id : Nat
  url : String
  title : String
  chunk : String
  chunk_norm : String
deriving DecidableEq

/-- The sqlite database: both tables plus the AUTOINCREMENT counter. -/
structure Store where
  docs : List DocRow
  chunks : List ChunkRow
  nextId : Nat
deriving DecidableEq

/-- A freshly created database (`_init_db`, source lines 81-104). -/
def emptyStore : Store := ⟨[], [], 1⟩

/-- `SELECT fetched_at FROM docs WHERE url=?` (source line 139). -/
def docOf (s : Store) (url : String) : Option DocRow :=
  s.docs.find? (fun r => r.url == url)

/-- The fetched-at timestamp of the doc row for `url`, if present. -/
def getFetchedAt (s : Store) (url : String) : Option Int :=
  (docOf s url).map (fun r => r.fetched_at)

/-- Whether a doc row for `url` exists. -/
def docExists (s : Store) (url : String) : Bool :=
  s.docs.any (fun r => r.url == url)

/-- The chunk rows belonging to `url`, in storage order. -/
def chunksFor (s : Store) (url : String) : List ChunkRow :=
  s.chunks.filter (fun r => r.url == url)

/-- `INSERT INTO docs ... ON CONFLICT(url) DO UPDATE` (source lines 149-156):
overwrite the existing row for `url` in place, else append a new row. -/
def upsertDoc (s : Store) (url title : String) (fetched_at : Int) (content : String) : Store :=
  if s.docs.any (fun r => r.url == url) then
    { s with docs := s.docs.map (fun r =>
        if r.url == url then ⟨url, title, fetched_at, content⟩ else r) }
  else
    { s with docs := s.docs ++ [⟨url, title, fetched_at, content⟩] }

/-- `DELETE FROM chunks WHERE url=?` (source line 158). -/
def deleteChunks (s : Store) (url : String) : Store :=
  { s with chunks := s.chunks.filter (fun r => !(r.url == url)) }

/-- `executemany INSERT INTO chunks` (source lines 167-170): append the new
rows with consecutive AUTOINCREMENT ids.  Each pair is (chunk, chunk_norm). -/
def insertChunks (s : Store) (url title : String) (rows : List (String × String)) : Store :=
  { s with
    chunks := s.chunks ++ rows.enum.map (fun p =>
      ⟨s.nextId + p.1, url, title, p.2.1, p.2.2⟩),
    nextId := s.nextId + rows.length }

/-- `url.split("/")[-1]` (source line 148). -/
def titleOf (url : String) : String :=
  String.mk ((splitOnChar '/' url.toList).getLastD [])

/-- Chunk rows derived from a page text (source lines 159-165): tokenize,
chunk with the source defaults 450/80, and pair each chunk with its
re-normalized form. -/
def indexChunks (text : String) : List (String × String) :=
  (chunk_tokens (tokenize text) 450 80).map (fun c => (c, joinSpace (tokenize c)))

/-- The write sequence for one successfully fetched URL (source lines
148-170): upsert the doc row, delete the old chunks, insert the new ones. -/
def writeDoc (s : Store) (url : String) (now : Int) (text : String) : Store :=
  insertChunks (deleteChunks (upsertDoc s url (titleOf url) now text) url)
    url (titleOf url) (indexChunks text)

/-- One iteration of the `ensure_index` loop (source lines 138-170) for one
candidate URL, on the failure-free path: skip if fresh, skip on fetch or
extract error (`except Exception: continue`), otherwise write.  Returns the
new store, the number of `fetch_url_text` calls made (0 or 1), and the list
of URLs whose index was rewritten ([] or [url]). -/
def indexStep (fetch : String → Option String) (now refreshSec : Int)
    (s : Store) (url : String) : Store × Nat × List String :=
  match getFetchedAt s url with
  | some t =>
    if now - t < refreshSec then (s, 0, [])
    else
      match fetch url with
      | none => (s, 1, [])
      | some text => (writeDoc s url now text, 1, [url])
  | none =>
    match fetch url with
    | none => (s, 1, [])
    | some text => (writeDoc s url now text, 1, [url])

/-- The `for url in discovered` loop of `ensure_index` (source lines
138-170), accumulating fetch attempts and successfully reindexed URLs. -/
def indexLoop (fetch : String → Option String) (now refreshSec : Int) :
    Store → List String → Store × Nat × List String
  | s, [] => (s, 0, [])
  | s, u :: us =>
    let r := indexStep fetch now refreshSec s u
    let r2 := indexLoop fetch now refreshSec r.1 us
    (r2.1, r.2.1 + r2.2.1, r.2.2 ++ r2.2.2)

/-- `discovered = [seed_url] + links` truncated to `max_pages` entries
(source lines 132-133). -/
def candidates (seed : String) (links : List String) (maxPages : Nat) : List String :=
  (seed :: links).take maxPages

/-- `ensure_index` (source lines 125-173) on the failure-free storage path,
with the seed fetch already abstracted into the discovered link list:
process every candidate URL in order.  `refresh_seconds = refresh_days *
24 * 3600` as on source line 127. -/
def ensure_index (seed : String) (links : List String) (fetch : String → Option String)
    (now refreshDays : Int) (maxPages : Nat) (s : Store) : Store × Nat × List String :=
  indexLoop fetch now (refreshDays * 24 * 3600) s (candidates seed links maxPages)

/-- A search hit (source lines 65-70).  The float `score` of the source is
`overlap / sqrt(qCard * cCard)`; it is represented here by its three
integer constituents (see the header note on floats). -/
structure Hit where
  url : String
  title : String
  chunk : String
  overlap : Nat
  qCard : Nat
  cCard : Nat
deriving DecidableEq

/-- Comparator used to sort hits descending by score (source line 202):
`hitBefore a b` holds when `score a ≥ score b`, decided exactly by
cross-multiplying `overlap / sqrt(qCard*cCard)` after squaring. -/
def hitBefore (a b : Hit) : Prop :=
  b.overlap * b.overlap * (a.qCard * a.cCard) ≤ a.overlap * a.overlap * (b.qCard * b.cCard)

instance : DecidableRel hitBefore :=
  fun a b => inferInstanceAs (Decidable (_ ≤ _))

/-- `search` (source lines 175-203): tokenize the query, score every stored
chunk row by distinct-token overlap, drop rows with empty normalized text,
empty token lists or zero overlap, sort hits descending by score, take k.
The `denom == 0` fallback branch of line 199 is unreachable (both sets are
nonempty) and is absorbed into the score representation. -/
def search (rows : List ChunkRow) (query : String) (k : Nat) : List Hit :=
  let q_terms := tokenize query
  if q_terms.isEmpty then []
  else
    let q_set := q_terms.dedup
    let hits := rows.filterMap (fun row =>
      if row.chunk_norm = "" then none
      else
        let c_terms := pySplit row.chunk_norm
        if c_terms.isEmpty then none
        else
          let c_set := c_terms.dedup
          let overlap := (q_set.filter (fun t => decide (t ∈ c_set))).length
          if overlap = 0 then none
          else some ⟨row.url, row.title, row.chunk, overlap, q_set.length, c_set.length⟩)
    (List.insertionSort hitBefore hits).take k

/-- Scheme and host of a parsed URL, the two fields of `urlparse`
consulted by `_is_allowed` (source lines 106-108). -/
structure UrlParts where
  scheme : String
  netloc : String
deriving DecidableEq

/-- `_is_allowed` (source lines 106-108), with `urlparse` passed in as an
oracle: scheme http or https and host equal to the allow-listed one. -/
def is_allowed (parse : String → UrlParts) (allowed_host : String) (url : String) : Bool :=
  ((parse url).scheme == "http" || (parse url).scheme == "https") &&
    (parse url).netloc == allowed_host

/-- Python `str.lower()` on a whole string (ASCII fragment, as above). -/
def lowerStr (s : String) : String :=
  String.mk (s.toList.map Char.toLower)

/-- Python `str.endswith(suffix)`: the suffix relation on the underlying
character lists, decidable. -/
def endsWithStr (s suffix : String) : Bool :=
  decide (suffix.toList <:+ s.toList)

/-- `full.lower().endswith((".htm", ".html", ".pdf"))` (source lines 120-121). -/
def hasDocSuffix (full : String) : Bool :=
  endsWithStr (lowerStr full) ".htm" || endsWithStr (lowerStr full) ".html" ||
    endsWithStr (lowerStr full) ".pdf"

/-- `_extract_links` (source lines 110-123), with the soup abstracted to
the list of href attribute values on the page and `urljoin`/`urlparse`
passed as oracles: keep the joined URLs that are allowed and have a
document suffix, de-duplicate (the Python set) and sort.  Sorting uses the
codepoint-lexicographic order on strings, as Python `sorted` does. -/
def extract_links (join : String → String → String) (parse : String → UrlParts)
    (allowed_host : String) (hrefs : List String) (page_url : String) : List String :=
  let links := hrefs.filterMap (fun href =>
    let h := strip href
    if h = "" then none
    else
      let full := join page_url h
      if is_allowed parse allowed_host full && hasDocSuffix full then some full else none)
  List.insertionSort (fun a b => strLe a b = true) links.dedup

/-- One iteration of the `ensure_index` loop with storage failures made
explicit (claim C1): `storeFail url = true` means the first `cur.execute`
write for that URL raises.  The source has no handler around these writes
(lines 149-170), so the exception propagates: `Except.error ()`. -/
def indexStepE (storeFail : String → Bool) (fetch : String → Option String)
    (now refreshSec : Int) (s : Store) (url : String) : Except Unit Store :=
  match getFetchedAt s url with
  | some t =>
    if now - t < refreshSec then .ok s
    else
      match fetch url with
      | none => .ok s
      | some text => if storeFail url then .error () else .ok (writeDoc s url now text)
  | none =>
    match fetch url with
    | none => .ok s
    | some text => if storeFail url then .error () else .ok (writeDoc s url now text)

/-- The `ensure_index` loop under the storage-failure model: a raised
storage error aborts the whole loop (no handler in the source). -/
def indexLoopE (storeFail : String → Bool) (fetch : String → Option String)
    (now refreshSec : Int) : Store → List String → Except Unit Store
  | s, [] => .ok s
  | s, u :: us =>
    match indexStepE storeFail fetch now refreshSec s u with
    | .error e => .error e
    | .ok s₂ => indexLoopE storeFail fetch now refreshSec s₂ us

/-- The on-disk effect of `ensure_index` under the storage-failure model:
`con.commit()` (line 172) runs only if the loop finishes, so on an error
the connection is closed without commit and the database keeps its prior
contents (sqlite rolls back the open transaction). -/
def ensure_index_db (seed : String) (links : List String) (fetch : String → Option String)
    (storeFail : String → Bool) (now refreshDays : Int) (maxPages : Nat) (s : Store) : Store :=
  match indexLoopE storeFail fetch now (refreshDays * 24 * 3600) s
      (candidates seed links maxPages) with
  | .ok s₂ => s₂
  | .error _ => s

theorem toList_mk (l : List Char) : (String.mk l).toList = l := rfl

theorem runsByF_sound (p : Char → Bool) : ∀ (n : Nat) (l : List Char),
    ∀ r ∈ runsByF p n l, r ≠ [] ∧ ∀ c ∈ r, p c = true := by
  intro n
  induction n with
  | zero =>
    intro l r hr
    cases l <;> simp [runsByF] at hr
  | succ n ih =>
    intro l r hr
    match l with
    | [] => simp [runsByF] at hr
    | c :: cs =>
      rw [runsByF] at hr
      by_cases h : p c = true
      · rw [if_pos h] at hr
        rcases List.mem_cons.mp hr with rfl | hr2
        · refine ⟨?_, fun x hx => List.mem_takeWhile_imp hx⟩
          simp [List.takeWhile_cons_of_pos h]
        · exact ih _ r hr2
      · rw [if_neg h] at hr
        exact ih cs r hr

theorem runsBy_mem (p : Char → Bool) (l : List Char) :
    ∀ r ∈ runsBy p l, r ≠ [] ∧ ∀ c ∈ r, p c = true :=
  runsByF_sound p l.length l

theorem runsByF_congr (p : Char → Bool) : ∀ (f g : Nat) (l : List Char),
    l.length ≤ f → l.length ≤ g → runsByF p f l = runsByF p g l := by
  intro f
  induction f with
  | zero =>
    intro g l hf _
    have : l = [] := List.length_eq_zero.mp (Nat.le_zero.mp hf)
    subst this
    cases g <;> rfl
  | succ f ih =>
    intro g l hf hg
    cases l with
    | nil => cases g <;> rfl
    | cons c cs =>
      cases g with
      | zero => exact absurd hg (by simp)
      | succ g =>
        rw [runsByF, runsByF]
        by_cases h : p c = true
        · rw [if_pos h, if_pos h]
          congr 1
          apply ih
          · rw [List.dropWhile_cons_of_pos h]
            exact le_trans (List.dropWhile_sublist p (l := cs)).length_le
              (by simpa using Nat.le_of_succ_le_succ hf)
          · rw [List.dropWhile_cons_of_pos h]
            exact le_trans (List.dropWhile_sublist p (l := cs)).length_le
              (by simpa using Nat.le_of_succ_le_succ hg)
        · rw [if_neg h, if_neg h]
          exact ih g cs (by simpa using Nat.le_of_succ_le_succ hf)
            (by simpa using Nat.le_of_succ_le_succ hg)

theorem runsBy_cons (p : Char → Bool) (c : Char) (cs : List Char) :
    runsBy p (c :: cs) =
      if p c then ((c :: cs).takeWhile p) :: runsBy p ((c :: cs).dropWhile p)
      else runsBy p cs := by
  show runsByF p (cs.length + 1) (c :: cs) = _
  rw [runsByF]
  by_cases h : p c = true
  · rw [if_pos h, if_pos h]
    congr 1
    apply runsByF_congr
    · rw [List.dropWhile_cons_of_pos h]
      exact (List.dropWhile_sublist p (l := cs)).length_le
    · exact le_rfl
  · rw [if_neg h, if_neg h]
    rfl

theorem filter_takeWhile_dropWhile (p : Char → Bool) : ∀ (l : List Char),
    l.filter p = l.takeWhile p ++ (l.dropWhile p).filter p := by
  intro l
  induction l with
  | nil => simp
  | cons a l ih =>
    by_cases h : p a = true
    · simp [List.takeWhile_cons_of_pos h, List.dropWhile_cons_of_pos h,
        List.filter_cons_of_pos h, ih]
    · simp [List.takeWhile_cons_of_neg (by simpa using h),
        List.dropWhile_cons_of_neg (by simpa using h)]

theorem runsByF_join (p : Char → Bool) : ∀ (n : Nat) (l : List Char), l.length ≤ n →
    (runsByF p n l).flatten = l.filter p := by
  intro n
  induction n with
  | zero =>
    intro l hl
    have : l = [] := List.length_eq_zero.mp (Nat.le_zero.mp hl)
    subst this
    simp [runsByF]
  | succ n ih =>
    intro l hl
    match l with
    | [] => simp [runsByF]
    | c :: cs =>
      rw [runsByF]
      by_cases h : p c = true
      · rw [if_pos h, List.flatten_cons]
        rw [ih (List.dropWhile p (c :: cs))
          (by rw [List.dropWhile_cons_of_pos h]
              exact le_trans (List.dropWhile_sublist p (l := cs)).length_le
                (by simpa using Nat.le_of_succ_le_succ hl))]
        exact (filter_takeWhile_dropWhile p (c :: cs)).symm
      · rw [if_neg h]
        rw [ih cs (by simpa using Nat.le_of_succ_le_succ hl)]
        simp [List.filter_cons_of_neg (by simpa using h)]

theorem runsBy_flat (p : Char → Bool) (l : List Char) :
    (runsBy p l).flatten = l.filter p :=
  runsByF_join p l.length l le_rfl

theorem runsBy_nil_of_none (p : Char → Bool) (l : List Char)
    (h : ∀ c ∈ l, p c = false) : runsBy p l = [] := by
  rcases hrs : runsBy p l with _ | ⟨r, rs⟩
  · rfl
  · exfalso
    have hr : r ∈ runsBy p l := by rw [hrs]; exact List.mem_cons_self r rs
    obtain ⟨hne, -⟩ := runsBy_mem p l r hr
    obtain ⟨c, hc⟩ := List.exists_mem_of_ne_nil r hne
    have hcl : c ∈ (runsBy p l).flatten := List.mem_flatten.mpr ⟨r, hr, hc⟩
    rw [runsBy_flat] at hcl
    have h1 : p c = true := List.of_mem_filter hcl
    have h2 : c ∈ l := List.mem_of_mem_filter hcl
    rw [h c h2] at h1
    exact Bool.false_ne_true h1

theorem toLower_not_upper (c : Char) :
    ¬(65 ≤ (Char.toLower c).toNat ∧ (Char.toLower c).toNat ≤ 90) := by
  show ¬(65 ≤ (Char.toLower c).toNat ∧ (Char.toLower c).toNat ≤ 90)
  unfold Char.toLower
  by_cases h : c.toNat ≥ 65 ∧ c.toNat ≤ 90
  · rw [if_pos h]
    have hval : (c.toNat + 32).isValidChar := Or.inl (by omega)
    have hv : (Char.ofNat (c.toNat + 32)).toNat = c.toNat + 32 := by
      rw [Char.ofNat, dif_pos hval]
      rfl
    rw [hv]
    omega
  · rw [if_neg h]
    exact h

theorem isTok_toLower (c : Char) (h : isTok (Char.toLower c) = true) : isTok c = true := by
  by_cases hu : c.toNat ≥ 65 ∧ c.toNat ≤ 90
  · simp only [isTok, Bool.or_eq_true, Bool.and_eq_true, decide_eq_true_eq]
    refine Or.inl (Or.inr ?_)
    omega
  · unfold Char.toLower at h
    rwa [if_neg hu] at h

theorem isTok_not_ws (c : Char) (h : isTok c = true) : c.isWhitespace = false := by
  cases hw : c.isWhitespace
  · rfl
  · exfalso
    simp only [Char.isWhitespace, Bool.or_eq_true, decide_eq_true_eq] at hw
    rcases hw with ((rfl | rfl) | rfl) | rfl <;> revert h <;> decide

theorem squeeze_subset : ∀ (l : List Char), ∀ c ∈ squeeze l, c ∈ l
  | [] => by simp [squeeze]
  | [c] => by simp [squeeze]
  | c₁ :: c₂ :: rest => by
    intro x hx
    rw [squeeze] at hx
    by_cases h : (decide (c₁ = ' ') && decide (c₂ = ' ')) = true
    · rw [if_pos h] at hx
      exact List.mem_cons_of_mem c₁ (squeeze_subset (c₂ :: rest) x hx)
    · rw [if_neg h] at hx
      rcases List.mem_cons.mp hx with rfl | hx2
      · exact List.mem_cons_self x (c₂ :: rest)
      · exact List.mem_cons_of_mem c₁ (squeeze_subset (c₂ :: rest) x hx2)

theorem mem_normalizeL (l : List Char) :
    ∀ c ∈ normalizeL l, c = ' ' ∨ ∃ d ∈ l, c = Char.toLower d := by
  intro c hc
  unfold normalizeL stripEnds at hc
  rw [List.mem_reverse] at hc
  have hc2 := (List.dropWhile_sublist _ (l := ((List.dropWhile Char.isWhitespace _).reverse))).subset hc
  rw [List.mem_reverse] at hc2
  have hc3 := (List.dropWhile_sublist Char.isWhitespace (l := _)).subset hc2
  have hc4 := squeeze_subset _ c hc3
  unfold wsToSpace at hc4
  rw [List.mem_map] at hc4
  obtain ⟨d, hd, hcd⟩ := hc4
  by_cases hws : d.isWhitespace
  · left
    rw [← hcd, if_pos hws]
  · rw [← hcd, if_neg hws]
    unfold lowerNbsp at hd
    rw [List.mem_map] at hd
    obtain ⟨e, he, hde⟩ := hd
    rw [List.mem_map] at he
    obtain ⟨f, hf, hef⟩ := he
    by_cases hnb : e = nbsp
    · left
      rw [← hde, if_pos hnb]
    · right
      refine ⟨f, hf, ?_⟩
      rw [← hde, if_neg hnb, hef]

theorem takeWhile_append_of_all (p : Char → Bool) : ∀ (t R : List Char),
    (∀ c ∈ t, p c = true) → (∀ rh, R.head? = some rh → p rh = false) →
    (t ++ R).takeWhile p = t ∧ (t ++ R).dropWhile p = R := by
  intro t
  induction t with
  | nil =>
    intro R _ hR
    cases R with
    | nil => simp
    | cons rh R₂ =>
      have hneg : ¬ p rh = true := by rw [hR rh rfl]; simp
      simp only [List.nil_append]
      exact ⟨List.takeWhile_cons_of_neg hneg, List.dropWhile_cons_of_neg hneg⟩
  | cons c t ih =>
    intro R hall hR
    have hc : p c = true := hall c (List.mem_cons_self c t)
    obtain ⟨h1, h2⟩ := ih R (fun x hx => hall x (List.mem_cons_of_mem c hx)) hR
    simp only [List.cons_append, List.takeWhile_cons_of_pos hc,
      List.dropWhile_cons_of_pos hc, h1, h2, and_self]

theorem runsBy_joinSpaceL (p : Char → Bool) (hsp : p ' ' = false) :
    ∀ ts : List (List Char), (∀ t ∈ ts, t ≠ [] ∧ ∀ c ∈ t, p c = true) →
    runsBy p (joinSpaceL ts) = ts := by
  intro ts
  induction ts with
  | nil => intro _; rfl
  | cons t ts ih =>
    intro h
    obtain ⟨hne, hall⟩ := h t (List.mem_cons_self t ts)
    obtain ⟨c, cs, rfl⟩ := List.exists_cons_of_ne_nil hne
    have hc : p c = true := hall c (List.mem_cons_self c cs)
    cases ts with
    | nil =>
      show runsBy p (c :: cs) = [c :: cs]
      have hta := takeWhile_append_of_all p (c :: cs) [] hall (by intro rh hrh; simp at hrh)
      rw [List.append_nil] at hta
      obtain ⟨h1, h2⟩ := hta
      rw [runsBy_cons, if_pos hc, h1, h2]
      rfl
    | cons t₂ ts₂ =>
      have hrest := ih (fun u hu => h u (List.mem_cons_of_mem _ hu))
      show runsBy p ((c :: cs) ++ ' ' :: joinSpaceL (t₂ :: ts₂)) = (c :: cs) :: t₂ :: ts₂
      obtain ⟨h1, h2⟩ := takeWhile_append_of_all p (c :: cs) (' ' :: joinSpaceL (t₂ :: ts₂))
        hall (by intro rh hrh; simp at hrh; rw [← hrh]; exact hsp)
      rw [List.cons_append, runsBy_cons, if_pos hc, ← List.cons_append, h1, h2]
      rw [runsBy_cons, if_neg (by rw [hsp]; simp)]
      rw [hrest]

/-- Claim C5 - for every input string, tokenize returns only tokens that are
nonempty maximal runs of lowercase ASCII letters and digits (conjuncts 1 and
4: every token character is in [a-z0-9], and the tokens flattened in order
are exactly the token-class characters of the normalized input, so no run is
dropped or split); an input containing no ASCII letter or digit yields the
empty sequence (conjunct 2); the empty string yields the empty sequence
(conjunct 3). -/
theorem claim_C5 (s : String) :
    (∀ t ∈ tokenize s, t ≠ "" ∧ ∀ c ∈ t.toList,
        ((97 ≤ c.toNat ∧ c.toNat ≤ 122) ∨ (48 ≤ c.toNat ∧ c.toNat ≤ 57)))
    ∧ ((∀ c ∈ s.toList, isTok c = false) → tokenize s = [])
    ∧ tokenize "" = []
    ∧ ((tokenize s).map String.toList).flatten = (normalize_text s).toList.filter isTok := by
  refine ⟨?_, ?_, by decide, ?_⟩
  · intro t ht
    unfold tokenize at ht
    rw [List.mem_map] at ht
    obtain ⟨r, hr, rfl⟩ := ht
    obtain ⟨hne, hall⟩ := runsBy_mem isTok _ r hr
    constructor
    · intro hcon
      exact hne (congrArg String.toList hcon)
    · intro c hc
      rw [toList_mk] at hc
      have htok : isTok c = true := hall c hc
      have hcn : c ∈ (normalize_text s).toList := by
        have : c ∈ (runsBy isTok (normalize_text s).toList).flatten :=
          List.mem_flatten.mpr ⟨r, hr, hc⟩
        rw [runsBy_flat] at this
        exact List.mem_of_mem_filter this
      rcases mem_normalizeL s.toList c hcn with rfl | ⟨d, _, rfl⟩
      · exact absurd htok (by decide)
      · have hnu := toLower_not_upper d
        simp only [isTok, Bool.or_eq_true, Bool.and_eq_true, decide_eq_true_eq] at htok
        rcases htok with (h1 | h2) | h3
        · exact Or.inl h1
        · exact absurd h2 hnu
        · exact Or.inr h3
  · intro hnone
    have : ∀ c ∈ (normalize_text s).toList, isTok c = false := by
      intro c hc
      rcases mem_normalizeL s.toList c hc with rfl | ⟨d, hd, rfl⟩
      · decide
      · cases htl : isTok (Char.toLower d)
        · rfl
        · exact absurd (isTok_toLower d htl) (by rw [hnone d hd]; simp)
    unfold tokenize
    rw [runsBy_nil_of_none isTok _ this]
    rfl
  · unfold tokenize
    rw [List.map_map]
    have : (String.toList ∘ fun l => String.mk l) = id := rfl
    rw [this, List.map_id, runsBy_flat]

/-- Claim C5 witness: a punctuation-only input produces no tokens. -/
theorem claim_C5_witness : tokenize "?!." = [] :=
  (claim_C5 "?!.").2.1 (by decide)

/-- Claim C8 - for every chunk string c, splitting the stored normalized
text (a single-space join of tokenize c, as written by ensure_index at
source line 164) with str.split() recovers exactly tokenize c; hence the
token set search compares against the query (source lines 191-194) equals
the token set produced by the same tokenize function at index time. -/
theorem claim_C8 (c : String) :
    pySplit (joinSpace (tokenize c)) = tokenize c
    ∧ (∀ t, t ∈ pySplit (joinSpace (tokenize c)) ↔ t ∈ tokenize c) := by
  have hmain : pySplit (joinSpace (tokenize c)) = tokenize c := by
    unfold pySplit joinSpace
    rw [toList_mk]
    have hmm : (tokenize c).map String.toList = runsBy isTok (normalize_text c).toList := by
      unfold tokenize
      rw [List.map_map]
      have : (String.toList ∘ fun l => String.mk l) = id := rfl
      rw [this, List.map_id]
    rw [hmm]
    rw [runsBy_joinSpaceL (fun x => !x.isWhitespace) (by decide)
      (runsBy isTok (normalize_text c).toList)
      (by
        intro t ht
        obtain ⟨hne, hall⟩ := runsBy_mem isTok _ t ht
        exact ⟨hne, fun x hx => by
          show (!x.isWhitespace) = true
          rw [isTok_not_ws x (hall x hx)]
          rfl⟩)]
    rw [← hmm, List.map_map]
    have : ((fun l => String.mk l) ∘ String.toList) = id := by
      funext u
      cases u
      rfl
    rw [this, List.map_id]
  exact ⟨hmain, fun t => by rw [hmain]⟩

theorem chunkGoF_congr (tokens : List String) (cs step : Nat) : ∀ (f g i : Nat),
    tokens.length - i ≤ f → tokens.length - i ≤ g →
    chunkGoF tokens cs step f i = chunkGoF tokens cs step g i := by
  intro f
  induction f with
  | zero =>
    intro g i hf _
    have hi : ¬ i < tokens.length := by omega
    cases g with
    | zero => rfl
    | succ g =>
      show [] = chunkGoF tokens cs step (g + 1) i
      rw [chunkGoF, if_neg hi]
  | succ f ih =>
    intro g i hf hg
    cases g with
    | zero =>
      have hi : ¬ i < tokens.length := by omega
      show chunkGoF tokens cs step (f + 1) i = []
      rw [chunkGoF, if_neg hi]
    | succ g =>
      rw [chunkGoF]
      conv_rhs => rw [chunkGoF]
      by_cases hi : i < tokens.length
      · rw [if_pos hi, if_pos hi]
        by_cases he : ((tokens.drop i).take cs).isEmpty = true
        · rw [if_pos he, if_pos he]
        · rw [if_neg he, if_neg he]
          congr 1
          apply ih
          · have := Nat.le_max_left 1 step
            omega
          · have := Nat.le_max_left 1 step
            omega
      · rw [if_neg hi, if_neg hi]

theorem chunkGo_eq (tokens : List String) (cs step i : Nat) :
    chunkGo tokens cs step i =
      if i < tokens.length then
        if ((tokens.drop i).take cs).isEmpty then []
        else joinSpace ((tokens.drop i).take cs) :: chunkGo tokens cs step (i + max 1 step)
      else [] := by
  show chunkGoF tokens cs step (tokens.length - i) i = _
  by_cases hi : i < tokens.length
  · have h1 : tokens.length - i = (tokens.length - i - 1) + 1 := by omega
    rw [h1, chunkGoF, if_pos hi, if_pos hi]
    by_cases he : ((tokens.drop i).take cs).isEmpty = true
    · rw [if_pos he, if_pos he]
    · rw [if_neg he, if_neg he]
      congr 1
      apply chunkGoF_congr
      · have := Nat.le_max_left 1 step
        omega
      · exact le_rfl
  · have h0 : tokens.length - i = 0 := by omega
    rw [h0, if_neg hi]
    rfl

theorem chunk_ne_empty (tokens : List String) (cs i : Nat) (hcs : 1 ≤ cs)
    (hi : i < tokens.length) : ((tokens.drop i).take cs).isEmpty = false := by
  rw [Bool.eq_false_iff]
  intro he
  rw [List.isEmpty_iff, List.take_eq_nil_iff, List.drop_eq_nil_iff] at he
  omega

theorem chunkGo_getElem (tokens : List String) (cs step : Nat) (hcs : 1 ≤ cs) :
    ∀ (m i : Nat), tokens.length - i ≤ m →
    ∀ (j : Nat), j < (chunkGo tokens cs step i).length →
      (chunkGo tokens cs step i)[j]? =
        some (joinSpace ((tokens.drop (i + j * max 1 step)).take cs)) := by
  intro m
  induction m with
  | zero =>
    intro i hm j hj
    exfalso
    have hi : ¬ i < tokens.length := by omega
    rw [chunkGo_eq, if_neg hi] at hj
    simp at hj
  | succ m ih =>
    intro i hm j hj
    by_cases hi : i < tokens.length
    · have he := chunk_ne_empty tokens cs i hcs hi
      have heq : chunkGo tokens cs step i =
          joinSpace ((tokens.drop i).take cs) :: chunkGo tokens cs step (i + max 1 step) := by
        rw [chunkGo_eq, if_pos hi, if_neg (by rw [he]; simp)]
      cases j with
      | zero =>
        rw [heq, List.getElem?_cons_zero]
        simp
      | succ j =>
        have hst := Nat.le_max_left 1 step
        have hj2 : j < (chunkGo tokens cs step (i + max 1 step)).length := by
          rw [heq] at hj
          simpa using Nat.lt_of_succ_lt_succ hj
        rw [heq, List.getElem?_cons_succ, ih (i + max 1 step) (by omega) j hj2]
        congr 3
        ring
    · exfalso
      rw [chunkGo_eq, if_neg hi] at hj
      simp at hj

theorem chunkGo_length (tokens : List String) (cs step : Nat) (hcs : 1 ≤ cs) :
    ∀ (m i : Nat), tokens.length - i ≤ m →
    (chunkGo tokens cs step i).length =
      (tokens.length - i + max 1 step - 1) / max 1 step := by
  intro m
  induction m with
  | zero =>
    intro i hm
    have hi : ¬ i < tokens.length := by omega
    have hst := Nat.le_max_left 1 step
    have h0 : tokens.length - i = 0 := by omega
    rw [chunkGo_eq, if_neg hi, h0]
    simp only [List.length_nil]
    symm
    apply Nat.div_eq_of_lt
    omega
  | succ m ih =>
    intro i hm
    have hst := Nat.le_max_left 1 step
    by_cases hi : i < tokens.length
    · have he := chunk_ne_empty tokens cs i hcs hi
      rw [chunkGo_eq, if_pos hi, if_neg (by rw [he]; simp)]
      rw [List.length_cons, ih (i + max 1 step) (by omega)]
      by_cases hd : tokens.length - i ≤ max 1 step
      · have h1 : tokens.length - (i + max 1 step) = 0 := by omega
        have e1 : (0 + max 1 step - 1) / max 1 step = 0 := by
          apply Nat.div_eq_of_lt
          omega
        have e2 : (tokens.length - i + max 1 step - 1) / max 1 step = 1 := by
          apply Nat.div_eq_of_lt_le
          · omega
          · omega
        rw [h1, e1, e2]
      · have h1 : tokens.length - (i + max 1 step) + max 1 step - 1 =
            (tokens.length - i - 1 - max 1 step) + max 1 step := by omega
        have h2 : tokens.length - i + max 1 step - 1 =
            (tokens.length - i - 1 - max 1 step) + max 1 step + max 1 step := by omega
        have hpos : 0 < max 1 step := by omega
        rw [h1, h2, Nat.add_div_right _ hpos, Nat.add_div_right _ hpos,
          Nat.add_div_right _ hpos]
    · have h0 : tokens.length - i = 0 := by omega
      rw [chunkGo_eq, if_neg hi, h0]
      simp only [List.length_nil]
      symm
      apply Nat.div_eq_of_lt
      omega

/-- Claim C4 counterexample: with `chunk_size = 3 > overlap = 2 ≥ 0` and a
token list of length `3 ≤ chunk_size`, the code produces three chunks, not
the single chunk `T` joined by spaces that the claim asserts: the window
advances by `step = chunk_size - overlap = 1`, so trailing windows remain. -/
theorem claim_C4_counterexample :
    (2 < 3 ∧ 0 < (["a", "b", "c"] : List String).length ∧
      (["a", "b", "c"] : List String).length ≤ 3) ∧
    chunk_tokens ["a", "b", "c"] 3 2 = ["a b c", "b c", "c"] ∧
    chunk_tokens ["a", "b", "c"] 3 2 ≠ [joinSpace ["a", "b", "c"]] := by
  refine ⟨by decide, by decide, by decide⟩

/-- Claim C4 as amended - for chunk_size > overlap ≥ 0 and step =
chunk_size - overlap: the j-th chunk is tokens[j*step : j*step+chunk_size]
joined by single spaces (conjunct 1); there are ceil(len/step) chunks, so
the final partial window is emitted whenever non-empty (conjunct 2);
exactly one chunk, equal to the whole list joined, is produced when
0 < len(T) ≤ step - not, as the claim stated, when len(T) ≤ chunk_size -
(conjunct 3); the empty list yields no chunks (conjunct 4). -/
theorem claim_C4_amended (T : List String) (cs ov : Nat) (hov : ov < cs) :
    (∀ j : Nat, j < (chunk_tokens T cs ov).length →
      (chunk_tokens T cs ov)[j]? = some (joinSpace ((T.drop (j * (cs - ov))).take cs)))
    ∧ (chunk_tokens T cs ov).length = (T.length + (cs - ov) - 1) / (cs - ov)
    ∧ (T ≠ [] → T.length ≤ cs - ov → chunk_tokens T cs ov = [joinSpace T])
    ∧ (T = [] → chunk_tokens T cs ov = []) := by
  have hcs : 1 ≤ cs := by omega
  have hst : max 1 (cs - ov) = cs - ov := Nat.max_eq_right (by omega)
  have hget := chunkGo_getElem T cs (cs - ov) hcs T.length 0 (by omega)
  have hlen := chunkGo_length T cs (cs - ov) hcs T.length 0 (by omega)
  rw [hst] at hget hlen
  refine ⟨?_, ?_, ?_, ?_⟩
  · intro j hj
    show (chunkGo T cs (cs - ov) 0)[j]? = some (joinSpace ((T.drop (j * (cs - ov))).take cs))
    rw [hget j hj]
    simp
  · show (chunkGo T cs (cs - ov) 0).length = _
    rw [hlen]
    simp
  · intro hne hle
    have hpos : 0 < T.length := List.length_pos.mpr hne
    have hone : (chunk_tokens T cs ov).length = 1 := by
      show (chunkGo T cs (cs - ov) 0).length = 1
      rw [hlen]
      apply Nat.div_eq_of_lt_le
      · omega
      · omega
    obtain ⟨a, ha⟩ := List.length_eq_one.mp hone
    have h0 := hget 0 (by
      rw [show chunkGo T cs (cs - ov) 0 = chunk_tokens T cs ov from rfl, ha]
      simp)
    rw [show chunkGo T cs (cs - ov) 0 = chunk_tokens T cs ov from rfl, ha] at h0
    rw [List.getElem?_cons_zero] at h0
    have ha2 := Option.some.inj h0
    rw [ha, ha2]
    have ht : T.take cs = T := List.take_of_length_le (by omega)
    simp [ht]
  · intro h
    subst h
    rfl

/-- Claim C4 amended witness: two tokens with the source defaults 450/80
(so len = 2 ≤ step = 370) give exactly one chunk, the space-join of the
list. -/
theorem claim_C4_witness :
    chunk_tokens ["hello", "world"] 450 80 = [joinSpace ["hello", "world"]] :=
  (claim_C4_amended ["hello", "world"] 450 80 (by decide)).2.2.1 (by decide) (by decide)

/-- Claim C9 - the chunk_tokens loop terminates for every token list and
every chunk_size/overlap pair, including overlap ≥ chunk_size, because the
advance is clamped to max(1, chunk_size - overlap) ≥ 1:  len(tokens)
iterations of fuel always suffice (the fuelled loop never reports
exhaustion and computes exactly chunk_tokens). -/
theorem claim_C9 (tokens : List String) (cs ov : Nat) :
    chunkGoFuel tokens cs (cs - ov) tokens.length 0 = some (chunk_tokens tokens cs ov) := by
  suffices h : ∀ (fuel i : Nat), tokens.length ≤ i + fuel →
      chunkGoFuel tokens cs (cs - ov) fuel i = some (chunkGo tokens cs (cs - ov) i) by
    exact h tokens.length 0 (by omega)
  intro fuel
  induction fuel with
  | zero =>
    intro i hfi
    have hi : ¬ i < tokens.length := by omega
    rw [chunkGoFuel, if_neg hi, chunkGo_eq, if_neg hi]
  | succ fuel ih =>
    intro i hfi
    rw [chunkGoFuel]
    conv_rhs => rw [chunkGo_eq]
    by_cases hi : i < tokens.length
    · rw [if_pos hi, if_pos hi]
      by_cases he : ((tokens.drop i).take cs).isEmpty = true
      · rw [if_pos he, if_pos he]
      · rw [if_neg he, if_neg he]
        have hst := Nat.le_max_left 1 (cs - ov)
        rw [ih (i + max 1 (cs - ov)) (by omega)]
        rfl
    · rw [if_neg hi, if_neg hi]

/-- Claim C3 - every Hit returned by search comes from a stored chunk row
whose split normalized text shares at least one token with the query
(overlap ≥ 1); rows with zero overlap are filtered out before sorting and
are never used to fill k (source lines 195-197), so no zero-overlap chunk
ever yields a Hit. -/
theorem claim_C3 (rows : List ChunkRow) (query : String) (k : Nat) :
    ∀ h ∈ search rows query k, ∃ row ∈ rows,
      h.url = row.url ∧ h.title = row.title ∧ h.chunk = row.chunk ∧ 1 ≤ h.overlap ∧
      ∃ t, t ∈ tokenize query ∧ t ∈ pySplit row.chunk_norm := by
  intro h hh
  simp only [search] at hh
  split at hh
  · simp at hh
  · have hh2 : h ∈ List.insertionSort hitBefore (rows.filterMap _) :=
      List.take_subset k _ hh
    rw [List.mem_insertionSort] at hh2
    rw [List.mem_filterMap] at hh2
    obtain ⟨row, hrow, hf⟩ := hh2
    refine ⟨row, hrow, ?_⟩
    split at hf
    · exact absurd hf (by simp)
    · split at hf
      · exact absurd hf (by simp)
      · split at hf
        · exact absurd hf (by simp)
        · rename_i hnorm hterms hov
          have hh3 := Option.some.inj hf
          subst hh3
          refine ⟨rfl, rfl, rfl, Nat.pos_of_ne_zero hov, ?_⟩
          obtain ⟨t, htf⟩ := List.exists_mem_of_length_pos (Nat.pos_of_ne_zero hov)
          rw [List.mem_filter] at htf
          obtain ⟨htq, htc⟩ := htf
          refine ⟨t, List.mem_dedup.mp htq, ?_⟩
          exact List.mem_dedup.mp (of_decide_eq_true htc)

/-- Claim C3 witness: a one-row store and a query sharing the token
`hello` produce exactly this hit, which the theorem traces back to its
row with a shared token. -/
theorem claim_C3_witness :
    ∃ row ∈ [ChunkRow.mk 1 "u" "t" "hello world" "hello world"],
      (Hit.mk "u" "t" "hello world" 1 1 2).url = row.url ∧
      (Hit.mk "u" "t" "hello world" 1 1 2).title = row.title ∧
      (Hit.mk "u" "t" "hello world" 1 1 2).chunk = row.chunk ∧
      1 ≤ (Hit.mk "u" "t" "hello world" 1 1 2).overlap ∧
      ∃ t, t ∈ tokenize "hello" ∧ t ∈ pySplit row.chunk_norm :=
  claim_C3 [ChunkRow.mk 1 "u" "t" "hello world" "hello world"] "hello" 6
    (Hit.mk "u" "t" "hello world" 1 1 2) (by decide)

theorem lexLeL_total : ∀ (as bs : List Char), lexLeL as bs = true ∨ lexLeL bs as = true := by
  intro as
  induction as with
  | nil => intro bs; left; rfl
  | cons a as ih =>
    intro bs
    cases bs with
    | nil => right; rfl
    | cons b bs =>
      rcases lt_trichotomy a b with h | h | h
      · left
        rw [lexLeL, if_pos h]
      · subst h
        rcases ih bs with h2 | h2
        · left
          rw [lexLeL, if_neg (lt_irrefl a), if_neg (lt_irrefl a)]
          exact h2
        · right
          rw [lexLeL, if_neg (lt_irrefl a), if_neg (lt_irrefl a)]
          exact h2
      · right
        rw [lexLeL, if_pos h]

theorem lexLeL_trans : ∀ (as bs cs : List Char),
    lexLeL as bs = true → lexLeL bs cs = true → lexLeL as cs = true := by
  intro as
  induction as with
  | nil => intro bs cs _ _; rfl
  | cons a as ih =>
    intro bs cs h1 h2
    cases bs with
    | nil => exact absurd h1 (by rw [lexLeL]; simp)
    | cons b bs =>
      cases cs with
      | nil => exact absurd h2 (by rw [lexLeL]; simp)
      | cons c cs =>
        rw [lexLeL] at h1 h2 ⊢
        by_cases hab : a < b
        · by_cases hbc : b < c
          · rw [if_pos (lt_trans hab hbc)]
          · by_cases hcb : c < b
            · rw [if_neg hbc, if_pos hcb] at h2
              exact absurd h2 (by simp)
            · have hbec : b = c := le_antisymm (not_lt.mp hcb) (not_lt.mp hbc)
              subst hbec
              rw [if_pos hab]
        · by_cases hba : b < a
          · rw [if_neg hab, if_pos hba] at h1
            exact absurd h1 (by simp)
          · have haeb : a = b := le_antisymm (not_lt.mp hba) (not_lt.mp hab)
            subst haeb
            rw [if_neg hab, if_neg hba] at h1
            by_cases hac : a < c
            · rw [if_pos hac]
            · by_cases hca : c < a
              · rw [if_neg hac, if_pos hca] at h2
                exact absurd h2 (by simp)
              · have haec : a = c := le_antisymm (not_lt.mp hca) (not_lt.mp hac)
                rw [if_neg hac, if_neg hca] at h2 ⊢
                exact ih bs cs h1 h2

instance : IsTotal String (fun a b => strLe a b = true) :=
  ⟨fun a b => lexLeL_total a.toList b.toList⟩

instance : IsTrans String (fun a b => strLe a b = true) :=
  ⟨fun a b c => lexLeL_trans a.toList b.toList c.toList⟩

/-- Claim C6 - every URL extracted from the seed page has scheme http or
https and host exactly the allow-listed one (whatever `urljoin`/`urlparse`
do), its lowercased form ends in .htm, .html or .pdf, the list has no
duplicates and is sorted; and every candidate URL of ensure_index built
from this list is either the seed or one of these links, so an off-host
link never appears among the fetched or stored URLs. -/
theorem claim_C6 (join : String → String → String) (parse : String → UrlParts)
    (host : String) (hrefs : List String) (page : String) :
    (∀ u ∈ extract_links join parse host hrefs page,
      ((parse u).scheme = "http" ∨ (parse u).scheme = "https") ∧ (parse u).netloc = host ∧
      (".htm".toList <:+ (lowerStr u).toList ∨ ".html".toList <:+ (lowerStr u).toList ∨
        ".pdf".toList <:+ (lowerStr u).toList))
    ∧ (extract_links join parse host hrefs page).Nodup
    ∧ List.Sorted (fun a b => strLe a b = true) (extract_links join parse host hrefs page)
    ∧ (∀ (mp : Nat) (seed u : String),
        u ∈ candidates seed (extract_links join parse host hrefs page) mp →
        u = seed ∨ u ∈ extract_links join parse host hrefs page) := by
  refine ⟨?_, ?_, ?_, ?_⟩
  · intro u hu
    simp only [extract_links] at hu
    rw [List.mem_insertionSort, List.mem_dedup, List.mem_filterMap] at hu
    obtain ⟨href, _, hf⟩ := hu
    split at hf
    · exact absurd hf (by simp)
    · split at hf
      · rename_i hcond
        have hu2 := Option.some.inj hf
        subst hu2
        rw [Bool.and_eq_true] at hcond
        obtain ⟨hallow, hsuf⟩ := hcond
        simp only [is_allowed, Bool.and_eq_true, Bool.or_eq_true, beq_iff_eq] at hallow
        refine ⟨hallow.1, hallow.2, ?_⟩
        simp only [hasDocSuffix, endsWithStr, Bool.or_eq_true, decide_eq_true_eq] at hsuf
        rcases hsuf with (h | h) | h
        exacts [Or.inl h, Or.inr (Or.inl h), Or.inr (Or.inr h)]
      · exact absurd hf (by simp)
  · simp only [extract_links]
    exact (List.perm_insertionSort _ _).nodup_iff.mpr (List.nodup_dedup _)
  · simp only [extract_links]
    exact List.sorted_insertionSort _ _
  · intro mp seed u hu
    have := List.take_subset mp _ hu
    exact List.mem_cons.mp this

/-- Oracle instantiations for the claim C6 witness: a join that returns
the href unchanged and a parse that reports scheme http and host h. -/
def constJoin : String → String → String := fun _ href => href

/-- See `constJoin`. -/
def constParse : String → UrlParts := fun _ => ⟨"http", "h"⟩

/-- Claim C6 witness: the link a.htm extracted from a seed page keeps the
allowed scheme, host and suffix. -/
theorem claim_C6_witness :
    ((constParse "a.htm").scheme = "http" ∨ (constParse "a.htm").scheme = "https") ∧
    (constParse "a.htm").netloc = "h" ∧
    (".htm".toList <:+ (lowerStr "a.htm").toList ∨
      ".html".toList <:+ (lowerStr "a.htm").toList ∨
      ".pdf".toList <:+ (lowerStr "a.htm").toList) :=
  (claim_C6 constJoin constParse "h" ["b.htm", "a.htm", "evil"] "p").1 "a.htm" (by decide)

theorem chunks_upsertDoc (s : Store) (url title : String) (ts : Int) (content : String) :
    (upsertDoc s url title ts content).chunks = s.chunks := by
  unfold upsertDoc
  split <;> rfl

theorem find?_map_upsert_self (url title : String) (ts : Int) (content : String) :
    ∀ l : List DocRow, l.any (fun r => r.url == url) = true →
    (l.map (fun r => if r.url == url then ⟨url, title, ts, content⟩ else r)).find?
      (fun r => r.url == url) = some ⟨url, title, ts, content⟩ := by
  intro l
  induction l with
  | nil => simp
  | cons r l ih =>
    intro hany
    by_cases hr : (r.url == url) = true
    · simp only [List.map_cons, if_pos hr]
      rw [List.find?_cons_of_pos _ (by simp)]
    · simp only [List.map_cons, if_neg hr]
      have h1 : List.find? (fun r => r.url == url)
          (r :: (l.map (fun r => if r.url == url then ⟨url, title, ts, content⟩ else r))) =
          List.find? (fun r => r.url == url)
            (l.map (fun r => if r.url == url then ⟨url, title, ts, content⟩ else r)) :=
        List.find?_cons_of_neg _ hr
      rw [h1]
      simp only [List.any_cons, Bool.or_eq_true] at hany
      exact ih (hany.resolve_left hr)

theorem find?_map_upsert_other (u url title : String) (ts : Int) (content : String)
    (hne : u ≠ url) :
    ∀ l : List DocRow,
    (l.map (fun r => if r.url == url then ⟨url, title, ts, content⟩ else r)).find?
      (fun r => r.url == u) = l.find? (fun r => r.url == u) := by
  intro l
  have hNu : ¬ (((⟨url, title, ts, content⟩ : DocRow).url == u) = true) := by
    simp only [beq_iff_eq]
    exact fun hc => hne hc.symm
  induction l with
  | nil => rfl
  | cons r l ih =>
    simp only [List.map_cons]
    by_cases hr : (r.url == url) = true
    · have hru : ¬ ((r.url == u) = true) := by
        rw [beq_iff_eq] at hr ⊢
        rw [hr]
        exact fun hc => hne hc.symm
      rw [if_pos hr]
      have h1 : List.find? (fun r => r.url == u) ((⟨url, title, ts, content⟩ : DocRow) ::
          (l.map (fun r => if r.url == url then ⟨url, title, ts, content⟩ else r))) =
          List.find? (fun r => r.url == u)
            (l.map (fun r => if r.url == url then ⟨url, title, ts, content⟩ else r)) :=
        List.find?_cons_of_neg _ hNu
      have h2 : List.find? (fun r => r.url == u) (r :: l) =
          List.find? (fun r => r.url == u) l :=
        List.find?_cons_of_neg _ hru
      rw [h1, h2, ih]
    · rw [if_neg hr]
      by_cases hru : (r.url == u) = true
      · have h1 : List.find? (fun r => r.url == u) (r ::
            (l.map (fun r => if r.url == url then ⟨url, title, ts, content⟩ else r))) =
            some r :=
          List.find?_cons_of_pos _ hru
        have h2 : List.find? (fun r => r.url == u) (r :: l) = some r :=
          List.find?_cons_of_pos _ hru
        rw [h1, h2]
      · have h1 : List.find? (fun r => r.url == u) (r ::
            (l.map (fun r => if r.url == url then ⟨url, title, ts, content⟩ else r))) =
            List.find? (fun r => r.url == u)
              (l.map (fun r => if r.url == url then ⟨url, title, ts, content⟩ else r)) :=
          List.find?_cons_of_neg _ hru
        have h2 : List.find? (fun r => r.url == u) (r :: l) =
            List.find? (fun r => r.url == u) l :=
          List.find?_cons_of_neg _ hru
        rw [h1, h2, ih]

theorem docOf_upsert_self (s : Store) (url title : String) (ts : Int) (content : String) :
    docOf (upsertDoc s url title ts content) url = some ⟨url, title, ts, content⟩ := by
  unfold docOf upsertDoc
  by_cases hany : s.docs.any (fun r => r.url == url) = true
  · rw [if_pos hany]
    exact find?_map_upsert_self url title ts content s.docs hany
  · rw [if_neg hany]
    show (s.docs ++ [(⟨url, title, ts, content⟩ : DocRow)]).find? _ = _
    rw [List.find?_append]
    have hnone : s.docs.find? (fun r => r.url == url) = none := by
      rw [List.find?_eq_none]
      intro r hrl hc
      exact hany (List.any_eq_true.mpr ⟨r, hrl, hc⟩)
    rw [hnone]
    simp

theorem docOf_upsert_other (s : Store) (u url title : String) (ts : Int) (content : String)
    (hne : u ≠ url) : docOf (upsertDoc s url title ts content) u = docOf s u := by
  unfold docOf upsertDoc
  by_cases hany : s.docs.any (fun r => r.url == url) = true
  · rw [if_pos hany]
    exact find?_map_upsert_other u url title ts content hne s.docs
  · rw [if_neg hany]
    show (s.docs ++ [(⟨url, title, ts, content⟩ : DocRow)]).find? _ = _
    rw [List.find?_append]
    have hlast : List.find? (fun r => r.url == u) [(⟨url, title, ts, content⟩ : DocRow)] = none := by
      rw [List.find?_eq_none]
      intro r hrl hc
      simp at hrl
      rw [hrl] at hc
      simp at hc
      exact hne hc.symm
    rw [hlast]
    simp

theorem chunksFor_delete_other (s : Store) (u url : String) (hne : u ≠ url) :
    chunksFor (deleteChunks s url) u = chunksFor s u := by
  unfold chunksFor deleteChunks
  show (s.chunks.filter _).filter _ = _
  rw [List.filter_filter]
  refine List.filter_congr ?_
  intro r _
  by_cases hru : (r.url == u) = true
  · have : (r.url == url) = false := by
      rw [beq_iff_eq] at hru
      rw [beq_eq_false_iff_ne, hru]
      exact hne
    simp [hru, this]
  · simp [hru]

theorem chunksFor_insert_other (s : Store) (u url title : String)
    (rows : List (String × String)) (hne : u ≠ url) :
    chunksFor (insertChunks s url title rows) u = chunksFor s u := by
  unfold chunksFor insertChunks
  show (s.chunks ++ _).filter _ = _
  rw [List.filter_append]
  have hnil : (rows.enum.map (fun p =>
      (⟨s.nextId + p.1, url, title, p.2.1, p.2.2⟩ : ChunkRow))).filter
        (fun r => r.url == u) = [] := by
    rw [List.filter_eq_nil_iff]
    intro r hr
    rw [List.mem_map] at hr
    obtain ⟨p, _, hp⟩ := hr
    rw [← hp]
    simp only [beq_iff_eq]
    exact fun hc => hne hc.symm
  rw [hnil, List.append_nil]

theorem docExists_upsert (s : Store) (v url title : String) (ts : Int) (content : String)
    (h : docExists s v = true) : docExists (upsertDoc s url title ts content) v = true := by
  unfold docExists at h ⊢
  unfold upsertDoc
  rw [List.any_eq_true] at h
  obtain ⟨r, hrl, hrv⟩ := h
  by_cases hany : s.docs.any (fun r => r.url == url) = true
  · rw [if_pos hany]
    show ((s.docs.map _).any _) = true
    rw [List.any_eq_true]
    by_cases hr : (r.url == url) = true
    · refine ⟨⟨url, title, ts, content⟩, List.mem_map.mpr ⟨r, hrl, by rw [if_pos hr]⟩, ?_⟩
      rw [beq_iff_eq] at hr hrv ⊢
      rw [← hr, hrv]
    · exact ⟨r, List.mem_map.mpr ⟨r, hrl, by rw [if_neg hr]⟩, hrv⟩
  · rw [if_neg hany]
    show ((s.docs ++ _).any _) = true
    rw [List.any_append]
    rw [List.any_eq_true.mpr ⟨r, hrl, hrv⟩]
    rfl

theorem getFetchedAt_writeDoc_self (s : Store) (u : String) (now : Int) (text : String) :
    getFetchedAt (writeDoc s u now text) u = some now := by
  show ((docOf (upsertDoc s u (titleOf u) now text) u).map _) = some now
  rw [docOf_upsert_self]
  rfl

theorem getFetchedAt_writeDoc_other (s : Store) (v u : String) (now : Int) (text : String)
    (hne : v ≠ u) : getFetchedAt (writeDoc s u now text) v = getFetchedAt s v := by
  show ((docOf (upsertDoc s u (titleOf u) now text) v).map _) = _
  rw [docOf_upsert_other s v u (titleOf u) now text hne]
  rfl

theorem docOf_writeDoc_other (s : Store) (v u : String) (now : Int) (text : String)
    (hne : v ≠ u) : docOf (writeDoc s u now text) v = docOf s v := by
  show docOf (upsertDoc s u (titleOf u) now text) v = _
  exact docOf_upsert_other s v u (titleOf u) now text hne

theorem chunksFor_writeDoc_other (s : Store) (v u : String) (now : Int) (text : String)
    (hne : v ≠ u) : chunksFor (writeDoc s u now text) v = chunksFor s v := by
  unfold writeDoc
  rw [chunksFor_insert_other _ _ _ _ _ hne, chunksFor_delete_other _ _ _ hne]
  unfold chunksFor
  rw [chunks_upsertDoc]

theorem docExists_writeDoc (s : Store) (v u : String) (now : Int) (text : String)
    (h : docExists s v = true) : docExists (writeDoc s u now text) v = true := by
  show docExists (upsertDoc s u (titleOf u) now text) v = true
  exact docExists_upsert s v u (titleOf u) now text h

theorem indexStep_eq_fresh (fetch : String → Option String) (now sec : Int) (s : Store)
    (u : String) (t : Int) (hga : getFetchedAt s u = some t) (hlt : now - t < sec) :
    indexStep fetch now sec s u = (s, 0, []) := by
  unfold indexStep
  rw [hga]
  simp only [if_pos hlt]

theorem indexStep_cases (fetch : String → Option String) (now sec : Int) (s : Store)
    (u : String) :
    indexStep fetch now sec s u = (s, 0, []) ∨ indexStep fetch now sec s u = (s, 1, []) ∨
    ∃ text, fetch u = some text ∧
      indexStep fetch now sec s u = (writeDoc s u now text, 1, [u]) := by
  unfold indexStep
  cases hga : getFetchedAt s u with
  | some t =>
    by_cases hlt : now - t < sec
    · left
      simp only [if_pos hlt]
    · cases hfu : fetch u with
      | none =>
        right; left
        simp only [if_neg hlt]
      | some text =>
        right; right
        exact ⟨text, rfl, by simp only [if_neg hlt]⟩
  | none =>
    cases hfu : fetch u with
    | none => right; left; rfl
    | some text =>
      right; right
      exact ⟨text, rfl, rfl⟩

theorem indexStep_of_fetch_none (fetch : String → Option String) (now sec : Int) (s : Store)
    (u : String) (hfu : fetch u = none) :
    (indexStep fetch now sec s u).1 = s ∧ (indexStep fetch now sec s u).2.2 = [] := by
  unfold indexStep
  cases hga : getFetchedAt s u with
  | some t =>
    by_cases hlt : now - t < sec
    · simp [if_pos hlt]
    · simp [if_neg hlt, hfu]
  | none =>
    simp [hfu]

theorem indexStep_makes_fresh (fetch : String → Option String) (now sec : Int) (s : Store)
    (u : String) (hsec : 0 < sec) (hfetch : (fetch u).isSome = true) :
    ∃ t, getFetchedAt (indexStep fetch now sec s u).1 u = some t ∧ now - t < sec := by
  obtain ⟨text, htext⟩ := Option.isSome_iff_exists.mp hfetch
  unfold indexStep
  cases hga : getFetchedAt s u with
  | some t =>
    by_cases hlt : now - t < sec
    · simp only [if_pos hlt]
      exact ⟨t, hga, hlt⟩
    · simp only [if_neg hlt, htext]
      refine ⟨now, getFetchedAt_writeDoc_self s u now text, by omega⟩
  | none =>
    simp only [htext]
    refine ⟨now, getFetchedAt_writeDoc_self s u now text, by omega⟩

theorem indexStep_preserves_fresh (fetch : String → Option String) (now sec : Int) (s : Store)
    (u v : String) (hsec : 0 < sec)
    (hfr : ∃ t, getFetchedAt s v = some t ∧ now - t < sec) :
    ∃ t, getFetchedAt (indexStep fetch now sec s u).1 v = some t ∧ now - t < sec := by
  rcases indexStep_cases fetch now sec s u with h | h | ⟨text, _, h⟩
  · rw [h]
    exact hfr
  · rw [h]
    exact hfr
  · rw [h]
    by_cases hv : v = u
    · subst hv
      exact ⟨now, getFetchedAt_writeDoc_self s v now text, by omega⟩
    · obtain ⟨t, hga, hlt⟩ := hfr
      rw [getFetchedAt_writeDoc_other s v u now text hv]
      exact ⟨t, hga, hlt⟩

theorem indexLoop_preserves_fresh (fetch : String → Option String) (now sec : Int)
    (hsec : 0 < sec) : ∀ (urls : List String) (s : Store) (v : String),
    (∃ t, getFetchedAt s v = some t ∧ now - t < sec) →
    ∃ t, getFetchedAt (indexLoop fetch now sec s urls).1 v = some t ∧ now - t < sec := by
  intro urls
  induction urls with
  | nil => intro s v hfr; exact hfr
  | cons u us ih =>
    intro s v hfr
    simp only [indexLoop]
    exact ih _ v (indexStep_preserves_fresh fetch now sec s u v hsec hfr)

theorem indexLoop_all_fresh (fetch : String → Option String) (now sec : Int)
    (hsec : 0 < sec) : ∀ (urls : List String) (s : Store),
    (∀ u ∈ urls, (fetch u).isSome = true) →
    ∀ v ∈ urls, ∃ t, getFetchedAt (indexLoop fetch now sec s urls).1 v = some t ∧ now - t < sec := by
  intro urls
  induction urls with
  | nil => intro s _ v hv; simp at hv
  | cons u us ih =>
    intro s hall v hv
    simp only [indexLoop]
    rcases List.mem_cons.mp hv with rfl | hv2
    · exact indexLoop_preserves_fresh fetch now sec hsec us _ v
        (indexStep_makes_fresh fetch now sec s v hsec (hall v (List.mem_cons_self v us)))
    · exact ih _ (fun x hx => hall x (List.mem_cons_of_mem u hx)) v hv2

theorem indexLoop_of_all_fresh (fetch : String → Option String) (now sec : Int) :
    ∀ (urls : List String) (s : Store),
    (∀ u ∈ urls, ∃ t, getFetchedAt s u = some t ∧ now - t < sec) →
    indexLoop fetch now sec s urls = (s, 0, []) := by
  intro urls
  induction urls with
  | nil => intro s _; rfl
  | cons u us ih =>
    intro s hall
    obtain ⟨t, hga, hlt⟩ := hall u (List.mem_cons_self u us)
    simp only [indexLoop, indexStep_eq_fresh fetch now sec s u t hga hlt]
    rw [ih s (fun x hx => hall x (List.mem_cons_of_mem u hx))]
    rfl

/-- Claim C2 - running ensure_index a second time immediately after a run
whose candidate fetches all succeeded (same clock reading, unchanged
network, positive refresh window) performs zero fetch_url_text calls -
every candidate URL is skipped because now - fetched_at = 0 <
refreshDays*86400 - reindexes nothing, and leaves the store exactly as
run 1 left it.  (The model counts fetches of candidate URLs; the seed-page
discovery GET of source line 130 is outside the freshness mechanism and
happens on every run.) -/
theorem claim_C2 (seed : String) (links : List String) (fetch : String → Option String)
    (now rd : Int) (mp : Nat) (s₀ : Store) (hrd : 0 < rd)
    (hfetch : ∀ u ∈ candidates seed links mp, (fetch u).isSome = true) :
    ensure_index seed links fetch now rd mp ((ensure_index seed links fetch now rd mp s₀).1)
      = ((ensure_index seed links fetch now rd mp s₀).1, 0, []) := by
  have hsec : 0 < rd * 24 * 3600 := by
    have h24 : (0 : Int) < 24 := by norm_num
    have h3600 : (0 : Int) < 3600 := by norm_num
    exact mul_pos (mul_pos hrd h24) h3600
  unfold ensure_index
  exact indexLoop_of_all_fresh fetch now (rd * 24 * 3600) (candidates seed links mp) _
    (indexLoop_all_fresh fetch now (rd * 24 * 3600) hsec (candidates seed links mp) s₀ hfetch)

/-- Claim C2 witness: a two-page site fetched successfully once; the
immediate second run is a no-op with zero fetches. -/
theorem claim_C2_witness :
    ensure_index "s" ["a"] (fun _ => some "hello world") 1000 14 10
        ((ensure_index "s" ["a"] (fun _ => some "hello world") 1000 14 10 emptyStore).1)
      = ((ensure_index "s" ["a"] (fun _ => some "hello world") 1000 14 10 emptyStore).1, 0, []) :=
  claim_C2 "s" ["a"] (fun _ => some "hello world") 1000 14 10 emptyStore (by decide) (by decide)

/-- Claim C7 - a fetch or extract error on one candidate URL leaves the
store untouched for that URL and the loop continues: the run over
us1 ++ [u] ++ us2 with u failing produces the same final store and the
same list of reindexed URLs as the run over us1 ++ us2 without u. -/
theorem claim_C7 (fetch : String → Option String) (now sec : Int) (s : Store)
    (us₁ us₂ : List String) (u : String) (hfail : fetch u = none) :
    (indexLoop fetch now sec s (us₁ ++ u :: us₂)).1
      = (indexLoop fetch now sec s (us₁ ++ us₂)).1
    ∧ (indexLoop fetch now sec s (us₁ ++ u :: us₂)).2.2
      = (indexLoop fetch now sec s (us₁ ++ us₂)).2.2 := by
  induction us₁ generalizing s with
  | nil =>
    obtain ⟨h1, h2⟩ := indexStep_of_fetch_none fetch now sec s u hfail
    constructor
    · show (indexLoop fetch now sec (indexStep fetch now sec s u).1 us₂).1 = _
      rw [h1]
      rfl
    · show (indexStep fetch now sec s u).2.2 ++
        (indexLoop fetch now sec (indexStep fetch now sec s u).1 us₂).2.2 = _
      rw [h1, h2]
      rfl
  | cons a us₁ ih =>
    obtain ⟨h1, h2⟩ := ih (indexStep fetch now sec s a).1
    constructor
    · show (indexLoop fetch now sec (indexStep fetch now sec s a).1 (us₁ ++ u :: us₂)).1 = _
      rw [h1]
      rfl
    · show (indexStep fetch now sec s a).2.2 ++
        (indexLoop fetch now sec (indexStep fetch now sec s a).1 (us₁ ++ u :: us₂)).2.2 = _
      rw [h2]
      rfl

/-- Claim C7 witness: with a network where every fetch fails, inserting
the broken URL x into the candidate list changes neither the store nor
the set of reindexed URLs. -/
theorem claim_C7_witness :
    (indexLoop (fun _ => none) 0 1209600 emptyStore (["a"] ++ "x" :: ["b"])).1
      = (indexLoop (fun _ => none) 0 1209600 emptyStore (["a"] ++ ["b"])).1
    ∧ (indexLoop (fun _ => none) 0 1209600 emptyStore (["a"] ++ "x" :: ["b"])).2.2
      = (indexLoop (fun _ => none) 0 1209600 emptyStore (["a"] ++ ["b"])).2.2 :=
  claim_C7 (fun _ => none) 0 1209600 emptyStore ["a"] ["b"] "x" rfl

/-- Claim C10 - ensure_index never deletes a doc row (conjunct 3: doc rows
present before a run are present after it), and a URL that is not
successfully refetched in the run (not a candidate, skipped as fresh, or
its fetch failed - exactly the URLs absent from the run's reindexed list)
keeps its doc row and its chunk rows unchanged (conjuncts 1 and 2); chunks
are deleted only inside writeDoc for a URL that was just fetched,
immediately before its replacement chunks are inserted. -/
theorem claim_C10 (fetch : String → Option String) (now sec : Int) :
    ∀ (urls : List String) (s : Store) (u : String),
    u ∉ (indexLoop fetch now sec s urls).2.2 →
    docOf (indexLoop fetch now sec s urls).1 u = docOf s u
    ∧ chunksFor (indexLoop fetch now sec s urls).1 u = chunksFor s u
    ∧ ∀ v, docExists s v = true → docExists (indexLoop fetch now sec s urls).1 v = true := by
  intro urls
  induction urls with
  | nil => intro s u _; exact ⟨rfl, rfl, fun v hv => hv⟩
  | cons a us ih =>
    intro s u hu
    simp only [indexLoop] at hu ⊢
    rw [List.mem_append] at hu
    push_neg at hu
    obtain ⟨hu1, hu2⟩ := hu
    rcases indexStep_cases fetch now sec s a with h | h | ⟨text, hfa, h⟩
    · rw [h] at hu2 ⊢
      exact ih s u hu2
    · rw [h] at hu2 ⊢
      exact ih s u hu2
    · rw [h] at hu1 hu2 ⊢
      have hne : u ≠ a := by
        intro hc
        exact hu1 (by rw [hc]; exact List.mem_cons_self a [])
      obtain ⟨ih1, ih2, ih3⟩ := ih (writeDoc s a now text) u hu2
      refine ⟨?_, ?_, ?_⟩
      · rw [ih1, docOf_writeDoc_other s u a now text hne]
      · rw [ih2, chunksFor_writeDoc_other s u a now text hne]
      · intro v hv
        exact ih3 v (docExists_writeDoc s v a now text hv)

/-- Claim C10 witness: a run that attempts one URL and fails to fetch it
leaves a pre-existing document keep and its (absent) chunks untouched,
and deletes no document. -/
theorem claim_C10_witness :
    docOf (indexLoop (fun _ => none) 1000 1209600
        (Store.mk [DocRow.mk "keep" "t" 5 "x"] [] 1) ["a"]).1 "keep"
      = docOf (Store.mk [DocRow.mk "keep" "t" 5 "x"] [] 1) "keep"
    ∧ chunksFor (indexLoop (fun _ => none) 1000 1209600
        (Store.mk [DocRow.mk "keep" "t" 5 "x"] [] 1) ["a"]).1 "keep"
      = chunksFor (Store.mk [DocRow.mk "keep" "t" 5 "x"] [] 1) "keep"
    ∧ ∀ v, docExists (Store.mk [DocRow.mk "keep" "t" 5 "x"] [] 1) v = true →
        docExists (indexLoop (fun _ => none) 1000 1209600
          (Store.mk [DocRow.mk "keep" "t" 5 "x"] [] 1) ["a"]).1 v = true :=
  claim_C10 (fun _ => none) 1000 1209600 ["a"] (Store.mk [DocRow.mk "keep" "t" 5 "x"] [] 1)
    "keep" (by decide)

theorem indexStepE_no_storeFail (fetch : String → Option String) (now sec : Int)
    (s : Store) (u : String) :
    indexStepE (fun _ => false) fetch now sec s u
      = .ok (indexStep fetch now sec s u).1 := by
  unfold indexStepE indexStep
  cases hga : getFetchedAt s u with
  | some t =>
    by_cases hlt : now - t < sec
    · simp [if_pos hlt]
    · cases hfu : fetch u with
      | none => simp [if_neg hlt]
      | some text => simp [if_neg hlt]
  | none =>
    cases hfu : fetch u with
    | none => rfl
    | some text => rfl

theorem indexLoopE_no_storeFail (fetch : String → Option String) (now sec : Int) :
    ∀ (urls : List String) (s : Store),
    indexLoopE (fun _ => false) fetch now sec s urls
      = .ok (indexLoop fetch now sec s urls).1 := by
  intro urls
  induction urls with
  | nil => intro s; rfl
  | cons u us ih =>
    intro s
    simp only [indexLoopE, indexStepE_no_storeFail fetch now sec s u]
    simp only [indexLoop]
    exact ih (indexStep fetch now sec s u).1

/-- Claim C1 counterexample: a concrete run over candidates [s, b, c]
where the writes for s and b succeed and the first write for c raises a
storage error.  The exception propagates out of the loop (source has no
handler around lines 149-170), con.commit() on line 172 never runs, and
the open transaction is rolled back: the resulting database is the
initial empty one.  So the writes for the unrelated URLs s and b are
lost, and with a failure at b instead, c would never be processed - the
failure is not contained to the one URL as the claim states (the second
conjunct shows the same run with no storage failure does index c). -/
theorem claim_C1_counterexample :
    ensure_index_db "s" ["b", "c"] (fun _ => some "hello world") (fun v => v == "b")
        0 14 10 emptyStore = emptyStore
    ∧ docExists (ensure_index_db "s" ["b", "c"] (fun _ => some "hello world")
        (fun _ => false) 0 14 10 emptyStore) "c" = true
    ∧ docExists (ensure_index_db "s" ["b", "c"] (fun _ => some "hello world")
        (fun v => v == "b") 0 14 10 emptyStore) "c" = false
    ∧ docExists (ensure_index_db "s" ["b", "c"] (fun _ => some "hello world")
        (fun v => v == "b") 0 14 10 emptyStore) "s" = false := by
  refine ⟨by decide, by decide, by decide, by decide⟩

/-- Claim C1 as amended - a storage-layer write failure during
ensure_index is not contained to the failing URL: once the loop reaches a
URL whose write raises, the whole loop aborts with the exception (the
remaining candidate URLs, us2, are never processed), and because commit
is never reached the database keeps its pre-run contents - including the
loss of the same run's earlier successful writes.  Only fetch/extract
failures are contained per-URL (claim C7). -/
theorem claim_C1_amended (storeFail : String → Bool) (fetch : String → Option String)
    (now rd : Int) (mp : Nat) (seed : String) (links : List String) (s s₁ : Store)
    (us₁ us₂ : List String) (u : String)
    (hcand : candidates seed links mp = us₁ ++ u :: us₂)
    (hpre : indexLoopE storeFail fetch now (rd * 24 * 3600) s us₁ = .ok s₁)
    (hstep : indexStepE storeFail fetch now (rd * 24 * 3600) s₁ u = .error ()) :
    indexLoopE storeFail fetch now (rd * 24 * 3600) s (candidates seed links mp) = .error ()
    ∧ ensure_index_db seed links fetch storeFail now rd mp s = s := by
  have hloop : ∀ (us : List String) (s' : Store),
      indexLoopE storeFail fetch now (rd * 24 * 3600) s' us = .ok s₁ →
      indexLoopE storeFail fetch now (rd * 24 * 3600) s' (us ++ u :: us₂) = .error () := by
    intro us
    induction us with
    | nil =>
      intro s' hp
      have hs : s' = s₁ := by
        simpa [indexLoopE] using hp
      subst hs
      simp only [List.nil_append, indexLoopE, hstep]
    | cons a us ih =>
      intro s' hp
      simp only [indexLoopE] at hp
      cases ha : indexStepE storeFail fetch now (rd * 24 * 3600) s' a with
      | error e =>
        rw [ha] at hp
        cases hp
      | ok s₂ =>
        rw [ha] at hp
        simp only [List.cons_append, indexLoopE, ha]
        exact ih s₂ hp
  have hmain := hloop us₁ s hpre
  rw [← hcand] at hmain
  refine ⟨hmain, ?_⟩
  unfold ensure_index_db
  rw [hmain]

/-- Claim C1 amended witness: candidates [b, c] with the very first write
(for b) failing; the loop errors out and the database is returned
unchanged, c never having been indexed. -/
theorem claim_C1_amended_witness :
    indexLoopE (fun v => v == "b") (fun _ => some "hello world") 0 (14 * 24 * 3600)
        emptyStore (candidates "b" ["c"] 10) = .error ()
    ∧ ensure_index_db "b" ["c"] (fun _ => some "hello world") (fun v => v == "b")
        0 14 10 emptyStore = emptyStore :=
  claim_C1_amended (fun v => v == "b") (fun _ => some "hello world") 0 14 10 "b" ["c"]
    emptyStore emptyStore [] ["c"] "b" (by decide) rfl rfl
